import Mathlib

set_option linter.unusedSectionVars false

/-!
Verification of the operation rebase engine of the FluidFramework repository
(experimental/dds/tree2/src/core/rebase/utils.ts), against its design
specification.  The commit graph, change algebra and tagging utilities are
imported by utils.ts from sibling modules (types.ts, changeRebaser.ts) that
are not part of this source snapshot; those small definitions are modelled
from the specification text (sections 3, 4.4 and 6), as marked on their doc
comments.  Everything else is translated directly from utils.ts.

JavaScript revision tags and session ids are modelled as natural numbers,
object identity as structural equality, and the impure mintRevisionTag
generator as an explicitly threaded counter of fresh tags.
-/

namespace Fluid

/-- Modelled from the spec: Commit from types.ts (spec section 3).  A commit
holds a revision tag, the authoring session id, an opaque change payload and
an optional reference to its parent commit.  The optional parent field of the
source is encoded with two constructors (no parent / a parent). -/
inductive GraphCommit (C : Type) : Type where
  | root (revision : Nat) (sessionId : Nat) (change : C)
  | child (revision : Nat) (sessionId : Nat) (change : C) (parent : GraphCommit C)
deriving DecidableEq

namespace GraphCommit

def revision {C : Type} : GraphCommit C → Nat
  | .root r _ _ => r
  | .child r _ _ _ => r

def sessionId {C : Type} : GraphCommit C → Nat
  | .root _ s _ => s
  | .child _ s _ _ => s

def change {C : Type} : GraphCommit C → C
  | .root _ _ c => c
  | .child _ _ c _ => c

/-- The optional parent reference of a commit. -/
def parentC {C : Type} : GraphCommit C → Option (GraphCommit C)
  | .root _ _ _ => none
  | .child _ _ _ p => some p

end GraphCommit

/-- Modelled from the spec: TaggedChange from changeRebaser.ts (spec
section 3).  Pairs a change payload with the revision tag it originated from,
plus an optional marking naming the revision it rolls back. -/
structure TaggedChange (C : Type) where
  revision : Nat
  rollbackOf : Option Nat
  change : C
deriving DecidableEq

/-- Modelled from the spec: tagRollbackInverse from changeRebaser.ts (spec
section 4.4): wraps an inverse change, marking which original revision it
undoes. -/
def tagRollbackInverse {C : Type} (change : C) (revision : Nat) (rollbackOf : Nat) :
    TaggedChange C :=
  ⟨revision, some rollbackOf, change⟩

/-- A GraphCommit used where a TaggedChange is expected (utils.ts relies on
the structural compatibility of the two record types). -/
def toTagged {C : Type} (c : GraphCommit C) : TaggedChange C :=
  ⟨c.revision, none, c.change⟩

/-- Modelled from the spec: the change algebra interface from
changeRebaser.ts (spec section 6). -/
structure ChangeRebaser (C : Type) where
  rebase : C → TaggedChange C → C
  invert : GraphCommit C → Bool → C
  compose : List (TaggedChange C) → C

/-- Modelled from the spec: mintCommit from types.ts (spec section 4.4):
copies revision, sessionId and change from an existing commit but reparents
it. -/
def mintCommit {C : Type} (parent : GraphCommit C) (c : GraphCommit C) : GraphCommit C :=
  .child c.revision c.sessionId c.change parent

/-- The object spread expression with a replaced change field used at
utils.ts line 217. -/
def setChange {C : Type} : GraphCommit C → C → GraphCommit C
  | .root r s _, ch => .root r s ch
  | .child r s _ p, ch => .child r s ch p

/-- The full ancestor chain of a commit, from the root to the commit itself,
in ancestor-to-descendant order.  A "branch" of the spec is exactly such a
chain. -/
def chain {C : Type} : GraphCommit C → List (GraphCommit C)
  | .root r s c => [.root r s c]
  | .child r s c p => chain p ++ [.child r s c p]

/-- Chain of an optional commit. -/
def chainOpt {C : Type} : Option (GraphCommit C) → List (GraphCommit C)
  | none => []
  | some c => chain c

section Ancestry

variable {C : Type} [DecidableEq C]

/-- Drop a prefix of a list through the first occurrence of an element
(helper for spliceToAfter). -/
def dropThrough (x : GraphCommit C) : List (GraphCommit C) → List (GraphCommit C)
  | [] => []
  | y :: ys => if y = x then ys else dropThrough x ys

/-- The path-trimming step of findCommonAncestor (utils.ts lines 381-384 and
394-397): findIndex of the found ancestor followed by splice(0, index + 1).
When the element is absent, findIndex yields -1 and the splice removes
nothing. -/
def spliceToAfter (x : GraphCommit C) (l : List (GraphCommit C)) : List (GraphCommit C) :=
  if x ∈ l then dropThrough x l else l

/-- The walk loop of findCommonAncestor (utils.ts lines 377-404): both chains
are walked upward in lockstep, recording visited nodes; the first node
already visited is the common ancestor, and the path on whose side it was
recorded is trimmed to the part strictly below it.  The source loop
terminates because parent chains are finite; that bound is made explicit here
by a gas parameter, set by the caller to the combined length of both
chains. -/
def fcaLoop : Nat → Option (GraphCommit C) → Option (GraphCommit C) →
    List (GraphCommit C) → List (GraphCommit C) → List (GraphCommit C) →
    Option (GraphCommit C × List (GraphCommit C) × List (GraphCommit C))
  | _, none, none, _, _, _ => none
  | 0, _, _, _, _, _ => none
  | gas + 1, some a, none, visited, pA, pB =>
    if a ∈ visited then some (a, pA, spliceToAfter a pB)
    else fcaLoop gas a.parentC none (a :: visited) (a :: pA) pB
  | gas + 1, none, some b, visited, pA, pB =>
    if b ∈ visited then some (b, spliceToAfter b pA, pB)
    else fcaLoop gas none b.parentC (b :: visited) pA (b :: pB)
  | gas + 1, some a, some b, visited, pA, pB =>
    if a ∈ visited then some (a, pA, spliceToAfter a pB)
    else if b ∈ a :: visited then some (b, spliceToAfter b (a :: pA), pB)
    else fcaLoop gas a.parentC b.parentC (b :: a :: visited) (a :: pA) (b :: pB)

/-- findCommonAncestor from utils.ts (lines 352-413), specialised to the call
shape used by the rebase functions: both descendants present, both out-paths
supplied and initially empty.  Returns the ancestor together with the two
populated paths; returns none when the chains never intersect (the source
then clears the paths and returns undefined). -/
def findCommonAncestor (a b : GraphCommit C) :
    Option (GraphCommit C × List (GraphCommit C) × List (GraphCommit C)) :=
  if a = b then some (a, [], [])
  else fcaLoop ((chain a).length + (chain b).length) (some a) (some b) [] [] []

end Ancestry

section Rebase

variable {C : Type} [DecidableEq C]

/-- The structured diff returned by rebaseBranch (utils.ts lines 13-28). -/
structure RebasedCommits (C : Type) where
  newBase : GraphCommit C
  deletedSourceCommits : List (GraphCommit C)
  newSourceCommits : List (GraphCommit C)
deriving DecidableEq

/-- rebaseChangeOverChanges from utils.ts (lines 265-271). -/
def rebaseChangeOverChanges (cr : ChangeRebaser C) (changeToRebase : C)
    (changesToRebaseOver : List (TaggedChange C)) : C :=
  changesToRebaseOver.foldl (fun a b => cr.rebase a b) changeToRebase

/-- inverseFromCommit from utils.ts (lines 273-282); the tag freshly minted
by mintRevisionTag is passed explicitly. -/
def inverseFromCommit (cr : ChangeRebaser C) (commit : GraphCommit C) (tag : Nat) :
    TaggedChange C :=
  tagRollbackInverse (cr.invert commit true) tag commit.revision

/-- targetPath.findIndex((r) => r === targetCommit) from utils.ts line 129,
with none standing for -1. -/
def findCommitIndex (tc : GraphCommit C) : List (GraphCommit C) → Option Nat
  | [] => none
  | t :: ts => if t = tc then some 0 else (findCommitIndex tc ts).map (· + 1)

/-- new Set(sourcePath.map((r) => r.revision)) from utils.ts line 149,
modelled as a duplicate-free list of revision tags. -/
def sourceRevs (sourcePath : List (GraphCommit C)) : List Nat :=
  (sourcePath.map (·.revision)).dedup

/-- The cancel-out scan of rebaseBranch (utils.ts lines 150-160): walk the
target path, deleting from the source revision set every matching revision
and advancing the new base index to the furthest match; stop at the first
non-matching commit at or past the target commit index.  Arguments: target
commit index, current set, current new base index, current position, rest of
the target path. -/
def cancelScan (tci : Nat) : List Nat → Nat → Nat → List (GraphCommit C) →
    List Nat × Nat
  | set, nbi, _, [] => (set, nbi)
  | set, nbi, i, t :: ts =>
    if t.revision ∈ set then cancelScan tci (set.erase t.revision) (max nbi i) (i + 1) ts
    else if tci ≤ i then (set, nbi)
    else cancelScan tci set nbi (i + 1) ts

/-- The shared-leading-range removal of rebaseBranch (utils.ts lines
169-177): shift both paths while their head commits carry the same revision
tag. -/
def stripSharedStart : List (GraphCommit C) → List (GraphCommit C) →
    List (GraphCommit C) × List (GraphCommit C)
  | s :: ss, t :: ts =>
    if s.revision = t.revision then stripSharedStart ss ts else (s :: ss, t :: ts)
  | s, t => (s, t)

/-- The fast-forward push of rebaseBranch (utils.ts lines 184-188): each
remaining source commit is minted again onto the end of the accumulated new
source commits (or onto the new base when that list is empty). -/
def pushReparented (newBase : GraphCommit C) :
    List (GraphCommit C) → List (GraphCommit C) → List (GraphCommit C)
  | acc, [] => acc
  | acc, c :: cs => pushReparented newBase (acc ++ [mintCommit (acc.getLastD newBase) c]) cs

/-- The per-commit rebase loop of rebaseBranch (utils.ts lines 202-222).
State: remaining source commits, running new head, inverses list, new source
commits, target rebase path, next fresh revision tag.  Commits whose revision
survived the cancel-out scan are rebased over the inverses so far followed by
the target rebase path, minted onto the new head and appended to both output
lists; every commit, cancelled or not, contributes a rollback inverse tagged
with a freshly minted revision. -/
def rebaseLoop (cr : ChangeRebaser C) (sourceSet : List Nat) :
    List (GraphCommit C) → GraphCommit C → List (TaggedChange C) →
    List (GraphCommit C) → List (GraphCommit C) → Nat →
    GraphCommit C × List (TaggedChange C) × List (GraphCommit C) ×
      List (GraphCommit C) × Nat
  | [], newHead, inverses, nsc, trp, fresh => (newHead, inverses, nsc, trp, fresh)
  | c :: cs, newHead, inverses, nsc, trp, fresh =>
    if c.revision ∈ sourceSet then
      let change := rebaseChangeOverChanges cr c.change (inverses ++ trp.map toTagged)
      let newHead' := GraphCommit.child c.revision c.sessionId change newHead
      rebaseLoop cr sourceSet cs newHead'
        (tagRollbackInverse (cr.invert c true) fresh c.revision :: inverses)
        (nsc ++ [newHead']) (trp ++ [setChange c change]) (fresh + 1)
    else
      rebaseLoop cr sourceSet cs newHead
        (tagRollbackInverse (cr.invert c true) fresh c.revision :: inverses)
        nsc trp (fresh + 1)

/-- rebaseBranch from utils.ts (lines 112-233).  A failed assertion is
modelled as none; a normal return as some of the triple of new source head,
cumulative source change and commit diff.  The fresh parameter seeds the
minted revision tags of the rollback inverses. -/
def rebaseBranch (cr : ChangeRebaser C)
    (sourceHead targetCommit targetHead : GraphCommit C) (fresh : Nat) :
    Option (GraphCommit C × Option C × RebasedCommits C) :=
  match findCommonAncestor sourceHead targetHead with
  | none => none
  | some (ancestor, sourcePath, targetPath) =>
    match findCommitIndex targetCommit targetPath with
    | none =>
      if (findCommonAncestor targetCommit targetHead).isSome then
        some (sourceHead, none, ⟨ancestor, [], []⟩)
      else none
    | some targetCommitIndex =>
      let scanned := cancelScan targetCommitIndex (sourceRevs sourcePath)
        targetCommitIndex 0 targetPath
      let newBaseIndex := scanned.2
      -- newBaseIndex is always a valid index into targetPath, so the getD
      -- default is never consulted.
      let newBase := targetPath.getD newBaseIndex ancestor
      let targetRebasePath := targetPath.take (newBaseIndex + 1)
      let deletedSourceCommits := sourcePath
      let newSourceCommits := targetRebasePath
      let stripped := stripSharedStart sourcePath targetRebasePath
      if stripped.2 = [] then
        let finalCommits := pushReparented newBase newSourceCommits stripped.1
        -- finalCommits extends the nonempty targetRebasePath, so the getLastD
        -- default is never consulted.
        some (finalCommits.getLastD newBase, none,
          ⟨newBase, deletedSourceCommits, finalCommits⟩)
      else
        let looped := rebaseLoop cr scanned.1 stripped.1 newBase [] newSourceCommits
          stripped.2 fresh
        some (looped.1, some (cr.compose (looped.2.1 ++ looped.2.2.2.1.map toTagged)),
          ⟨newBase, deletedSourceCommits, looped.2.2.1⟩)

/-- rebaseChange from utils.ts (lines 243-263).  The fresh parameter seeds
the revision tags minted for the rollback inverses of the source path. -/
def rebaseChange (cr : ChangeRebaser C) (change : C)
    (sourceHead targetHead : GraphCommit C) (fresh : Nat) : Option C :=
  match findCommonAncestor sourceHead targetHead with
  | none => none
  | some (_, sourcePath, targetPath) =>
    let refPair := sourcePath.foldr
      (fun branchCommit acc =>
        (cr.rebase acc.1 (inverseFromCommit cr branchCommit acc.2), acc.2 + 1))
      (change, fresh)
    some (targetPath.foldl (fun a b => cr.rebase a (toTagged b)) refPair.1)

/-- The data of a commit that is independent of its position in the graph:
revision tag, session id and change payload. -/
def commitData {C : Type} (c : GraphCommit C) : Nat × Nat × C :=
  (c.revision, c.sessionId, c.change)

/-- The rollback inverses minted by one run of the rebase loop, most recent
first, for a list of source commits and a starting fresh tag. -/
def rollbackInverses (cr : ChangeRebaser C) (fresh : Nat) :
    List (GraphCommit C) → List (TaggedChange C)
  | [] => []
  | c :: cs =>
    rollbackInverses cr (fresh + 1) cs ++
      [tagRollbackInverse (cr.invert c true) fresh c.revision]

/-- The set-and-index state produced by the cancel-out scan of rebaseBranch,
as a function of the source path, target path and target commit index. -/
def scanState (sp tp : List (GraphCommit C)) (i : Nat) : List Nat × Nat :=
  cancelScan i (sourceRevs sp) i 0 tp

/-- The new base commit chosen by rebaseBranch (utils.ts line 163). -/
def newBaseOf (anc : GraphCommit C) (sp tp : List (GraphCommit C)) (i : Nat) :
    GraphCommit C :=
  tp.getD (scanState sp tp i).2 anc

/-- The target rebase path of rebaseBranch before stripping (utils.ts line
165). -/
def targetRebasePathOf (sp tp : List (GraphCommit C)) (i : Nat) :
    List (GraphCommit C) :=
  tp.take ((scanState sp tp i).2 + 1)

/-- The residual source and target paths after the shared-leading-range
removal of rebaseBranch (utils.ts lines 169-177). -/
def strippedOf (sp tp : List (GraphCommit C)) (i : Nat) :
    List (GraphCommit C) × List (GraphCommit C) :=
  stripSharedStart sp (targetRebasePathOf sp tp i)

end Rebase

/-!  Concrete commit graphs over an integer-counter change algebra, used to
exercise the algorithms on the scenarios of the specification (section 8). -/

/-- Root commit A, counter 0, revision tag 0. -/
def cA : GraphCommit Int := .root 0 0 0

/-- Target commit B (+1), revision tag 1, minted off A. -/
def cB : GraphCommit Int := .child 1 0 1 cA

/-- Target commit C (+2), revision tag 2, minted off B. -/
def cC : GraphCommit Int := .child 2 0 2 cB

/-- Source commit B-prime (+5), carrying the same revision tag 1 as B but a
different payload, minted off A. -/
def cB2 : GraphCommit Int := .child 1 0 5 cA

/-- Source commit D (+3), revision tag 3, minted off B-prime. -/
def cD : GraphCommit Int := .child 3 0 3 cB2

/-- An integer change algebra whose rebase result records what it was rebased
over (rebase adds ten times the overlaid change), so that the rebase history
of a payload is visible in its value. -/
def crInt : ChangeRebaser Int where
  rebase := fun c over => c + 10 * over.change
  invert := fun commit _ => - commit.change
  compose := fun l => (l.map (·.change)).sum

/-- A second algebra differing from crInt only in compose, used to detect
whether a code path consults the algebra. -/
def crInt2 : ChangeRebaser Int where
  rebase := fun c over => c + 10 * over.change
  invert := fun commit _ => - commit.change
  compose := fun l => (l.map (·.change)).sum + 1000

/-- Target commit X (+7), revision tag 1, minted off A (second scenario). -/
def c2X : GraphCommit Int := .child 1 0 7 cA

/-- Target commit B (+1), revision tag 2, minted off X (second scenario). -/
def c2B : GraphCommit Int := .child 2 0 1 c2X

/-- Target head commit (+2), revision tag 4, minted off B (second
scenario). -/
def c2T : GraphCommit Int := .child 4 0 2 c2B

/-- Source commit B-prime (+5), same revision tag 2 as c2B, minted off A
(second scenario). -/
def c2B2 : GraphCommit Int := .child 2 0 5 cA

/-- Source commit D (+3), revision tag 3, minted off B-prime (second
scenario). -/
def c2D : GraphCommit Int := .child 3 0 3 c2B2

/-- Source commit S1 (+5), revision tag 1, minted off A (third scenario). -/
def c3S1 : GraphCommit Int := .child 1 0 5 cA

/-- Source head S2 (+6), revision tag 2, minted off S1 (third scenario). -/
def c3S2 : GraphCommit Int := .child 2 0 6 c3S1

/-- Target commit T1 (+1), revision tag 1, minted off A (third scenario). -/
def c3T1 : GraphCommit Int := .child 1 0 1 cA

/-- Target commit T2 (+2), revision tag 2, minted off T1 (third scenario). -/
def c3T2 : GraphCommit Int := .child 2 0 2 c3T1

/-- Target head T3 (+3), revision tag 3, minted off T2 (third scenario). -/
def c3T3 : GraphCommit Int := .child 3 0 3 c3T2

/-- Commit S (+1), revision tag 1, minted off A (side-branch scenario). -/
def c5S : GraphCommit Int := .child 1 0 1 cA

/-- Commit T (+2), revision tag 2, minted off A (side-branch scenario). -/
def c5T : GraphCommit Int := .child 2 0 2 cA

/-- Commit X (+3), revision tag 3, minted off A on a branch disjoint from T
(side-branch scenario). -/
def c5X : GraphCommit Int := .child 3 0 3 cA

/-- An isolated root unrelated to cA's graph. -/
def cR : GraphCommit Int := .root 9 1 4

/-!  ## Properties of ancestor chains -/

section ChainLemmas

variable {C : Type}

theorem chain_ne_nil (c : GraphCommit C) : chain c ≠ [] := by
  cases c <;> simp [chain]

theorem chain_eq_parent (c : GraphCommit C) : chain c = chainOpt c.parentC ++ [c] := by
  cases c <;> simp [chain, chainOpt, GraphCommit.parentC]

theorem mem_chain_self (c : GraphCommit C) : c ∈ chain c := by
  rw [chain_eq_parent]; simp

@[simp] theorem chainOpt_none : chainOpt (none : Option (GraphCommit C)) = [] := rfl

@[simp] theorem chainOpt_some (c : GraphCommit C) : chainOpt (some c) = chain c := rfl

/-- Every member of a chain determines a prefix of that chain: the member's
own chain. -/
theorem chain_decomp : ∀ (c x : GraphCommit C), x ∈ chain c → ∃ s, chain c = chain x ++ s
  | .root r s ch, x, h => by
    simp only [chain, List.mem_singleton] at h
    exact ⟨[], by simp [h]⟩
  | .child r s ch p, x, h => by
    rw [chain] at h
    rcases List.mem_append.mp h with h' | h'
    · obtain ⟨t, ht⟩ := chain_decomp p x h'
      exact ⟨t ++ [GraphCommit.child r s ch p], by rw [chain, ht, List.append_assoc]⟩
    · simp only [List.mem_singleton] at h'
      exact ⟨[], by simp [h']⟩

theorem chain_nodup : ∀ (c : GraphCommit C), (chain c).Nodup
  | .root r s ch => by simp [chain]
  | .child r s ch p => by
    rw [chain]
    refine List.Nodup.append (chain_nodup p) (by simp) ?_
    intro x hx hy
    simp only [List.mem_singleton] at hy
    subst hy
    obtain ⟨t, ht⟩ := chain_decomp p _ hx
    have ht' : chain p = (chain p ++ [GraphCommit.child r s ch p]) ++ t := ht
    have hlen := congrArg List.length ht'
    simp [List.length_append] at hlen

/-- Unique decomposition of a list around an element absent from both
prefixes. -/
theorem append_cons_inj {α : Type} (x : α) :
    ∀ (p p' q q' : List α), p ++ x :: q = p' ++ x :: q' → x ∉ p → x ∉ p' →
      p = p' ∧ q = q'
  | [], [], q, q', h, _, _ => by simpa using h
  | [], a' :: p', q, q', h, _, hx' => by
    simp only [List.nil_append, List.cons_append, List.cons.injEq] at h
    exact absurd (by rw [h.1]; exact List.mem_cons_self _ _ : x ∈ a' :: p') hx'
  | a :: p, [], q, q', h, hx, _ => by
    simp only [List.nil_append, List.cons_append, List.cons.injEq] at h
    exact absurd (by rw [← h.1]; exact List.mem_cons_self _ _ : x ∈ a :: p) hx
  | a :: p, a' :: p', q, q', h, hx, hx' => by
    simp only [List.cons_append, List.cons.injEq] at h
    obtain ⟨rfl, h2⟩ := h
    have hr := append_cons_inj x p p' q q' h2
      (fun hm => hx (List.mem_cons_of_mem _ hm))
      (fun hm => hx' (List.mem_cons_of_mem _ hm))
    exact ⟨by rw [hr.1], hr.2⟩

/-- If a chain decomposes around a member, the part before the member plus
the member is exactly the member's own chain. -/
theorem chain_prefix_of_mem {c x : GraphCommit C} {X Y : List (GraphCommit C)}
    (h : chain c = X ++ x :: Y) : chain x = X ++ [x] := by
  have hx : x ∈ chain c := by rw [h]; simp
  obtain ⟨s, hs⟩ := chain_decomp c x hx
  have hxp := chain_eq_parent x
  have hdec : chainOpt x.parentC ++ x :: s = X ++ x :: Y := by
    rw [← h, hs, hxp]; simp
  have hnx : x ∉ chainOpt x.parentC := by
    have hn := chain_nodup x
    rw [hxp, List.nodup_append] at hn
    intro hm
    exact hn.2.2 hm (by simp)
  have hnX : x ∉ X := by
    have hn := chain_nodup c
    rw [h, List.nodup_append] at hn
    intro hm
    exact hn.2.2 hm (by simp)
  have := append_cons_inj x _ _ _ _ hdec hnx hnX
  rw [hxp, this.1]

/-- A chain prefix is never repeated later in the same chain. -/
theorem chain_head_not_repeated {x c0 : GraphCommit C} {rest : List (GraphCommit C)}
    (h : chain x ++ rest = chain c0) : x ∉ rest := by
  intro hm
  have hn := chain_nodup c0
  rw [← h, List.nodup_append] at hn
  exact hn.2.2 (mem_chain_self x) hm

end ChainLemmas

/-!  ## Correctness of the common-ancestor walk -/

section FcaLemmas

variable {C : Type} [DecidableEq C]

theorem dropThrough_eq (x : GraphCommit C) :
    ∀ (p q : List (GraphCommit C)), x ∉ p → dropThrough x (p ++ x :: q) = q
  | [], q, _ => by simp [dropThrough]
  | a :: p, q, h => by
    have hax : a ≠ x := fun e => h (by simp [e])
    simp only [List.cons_append, dropThrough, if_neg hax]
    exact dropThrough_eq x p q (fun hm => h (List.mem_cons_of_mem _ hm))

theorem spliceToAfter_eq (x : GraphCommit C) (p q : List (GraphCommit C)) (h : x ∉ p) :
    spliceToAfter x (p ++ x :: q) = q := by
  rw [spliceToAfter, if_pos (by simp), dropThrough_eq x p q h]

/-- What holds when the walk of findCommonAncestor reaches a node of one
chain that is already recorded on the other side's path: the other original
chain splits as the found node's chain followed by the trimmed path, and
every node common to both original chains lies in the found node's chain. -/
theorem found_return {a0 b0 anc : GraphCommit C} {pre pA pB : List (GraphCommit C)}
    (h1 : chain a0 = chain anc ++ pA)
    (h2 : chain b0 = pre ++ pB)
    (hmem : anc ∈ pB)
    (hdisj : ∀ x, x ∈ pA → x ∈ pB → False) :
    chain b0 = chain anc ++ spliceToAfter anc pB ∧
    (∀ c, c ∈ chain a0 → c ∈ chain b0 → c ∈ chain anc) := by
  obtain ⟨p, q, hpq⟩ := List.append_of_mem hmem
  subst hpq
  have hnp : anc ∉ p := by
    have hn := chain_nodup b0
    rw [h2, List.nodup_append] at hn
    have hn2 := hn.2.1
    rw [List.nodup_append] at hn2
    intro hm
    exact hn2.2.2 hm (List.mem_cons_self _ _)
  have hb : chain b0 = (pre ++ p) ++ anc :: q := by rw [h2, ← List.append_assoc]
  have hanc := chain_prefix_of_mem hb
  have hb' : chain b0 = chain anc ++ q := by
    rw [hb, hanc, List.append_assoc]
    simp
  refine ⟨by rw [spliceToAfter_eq anc p q hnp, ← hb'], ?_⟩
  intro c hca hcb
  rw [h1] at hca
  rw [hb'] at hcb
  rcases List.mem_append.mp hca with h | h
  · exact h
  rcases List.mem_append.mp hcb with h' | h'
  · exact h'
  exact (hdisj c h (List.mem_append_right _ (List.mem_cons_of_mem _ h'))).elim

/-- Invariant-based specification of the findCommonAncestor walk loop:
started from a state whose paths and visited set faithfully describe the two
original chains, the loop either returns a common node whose chain prefixes
both originals, together with the two exact residual paths, or returns none
exactly when the chains are disjoint. -/
theorem fcaLoop_spec (a0 b0 : GraphCommit C) :
    ∀ (gas : Nat) (a b : Option (GraphCommit C)) (visited pA pB : List (GraphCommit C)),
      chainOpt a ++ pA = chain a0 →
      chainOpt b ++ pB = chain b0 →
      (∀ x, x ∈ visited ↔ (x ∈ pA ∨ x ∈ pB)) →
      (∀ x, x ∈ pA → x ∈ pB → False) →
      (chainOpt a).length + (chainOpt b).length ≤ gas →
      (∀ anc qA qB, fcaLoop gas a b visited pA pB = some (anc, qA, qB) →
          chain a0 = chain anc ++ qA ∧ chain b0 = chain anc ++ qB ∧
          ∀ c, c ∈ chain a0 → c ∈ chain b0 → c ∈ chain anc) ∧
      (fcaLoop gas a b visited pA pB = none →
          ∀ c, c ∈ chain a0 → c ∈ chain b0 → False) := by
  intro gas
  induction gas with
  | zero =>
    intro a b visited pA pB h1 h2 h3 h4 hgas
    have ha : a = none := by
      cases a with
      | none => rfl
      | some x =>
        exfalso
        apply chain_ne_nil x
        apply List.length_eq_zero.mp
        simp only [chainOpt_some, chainOpt_none] at hgas
        omega
    have hb : b = none := by
      cases b with
      | none => rfl
      | some x =>
        exfalso
        apply chain_ne_nil x
        apply List.length_eq_zero.mp
        simp only [chainOpt_some, chainOpt_none] at hgas
        omega
    subst ha; subst hb
    replace h1 : pA = chain a0 := h1
    replace h2 : pB = chain b0 := h2
    constructor
    · intro anc qA qB h
      simp [fcaLoop] at h
    · intro _ c hca hcb
      exact h4 c (h1 ▸ hca) (h2 ▸ hcb)
  | succ g ih =>
    intro a b visited pA pB h1 h2 h3 h4 hgas
    cases a with
    | none =>
      replace h1 : pA = chain a0 := h1
      cases b with
      | none =>
        replace h2 : pB = chain b0 := h2
        constructor
        · intro anc qA qB h
          simp [fcaLoop] at h
        · intro _ c hca hcb
          exact h4 c (h1 ▸ hca) (h2 ▸ hcb)
      | some b =>
        replace h2 : chain b ++ pB = chain b0 := h2
        by_cases hv : b ∈ visited
        · constructor
          · intro anc qA qB h
            simp only [fcaLoop] at h
            rw [if_pos hv] at h
            simp only [Option.some.injEq, Prod.mk.injEq] at h
            obtain ⟨rfl, rfl, rfl⟩ := h
            have hmem : b ∈ pA := by
              rcases (h3 b).mp hv with h' | h'
              · exact h'
              · exact absurd h' (chain_head_not_repeated h2)
            have h1n : chain a0 = [] ++ pA := by simp [h1]
            have hfr := found_return h2.symm h1n hmem (fun x hx hy => h4 x hy hx)
            exact ⟨hfr.1, h2.symm, fun c hca hcb => hfr.2 c hcb hca⟩
          · intro h
            simp only [fcaLoop] at h
            rw [if_pos hv] at h
            exact Option.noConfusion h
        · have h1' : chainOpt (none : Option (GraphCommit C)) ++ pA = chain a0 := by
            simpa using h1
          have h2' : chainOpt b.parentC ++ (b :: pB) = chain b0 := by
            rw [← h2, chain_eq_parent b, List.append_assoc]
            rfl
          have h3' : ∀ x, x ∈ b :: visited ↔ (x ∈ pA ∨ x ∈ b :: pB) := by
            intro x
            simp only [List.mem_cons, h3 x]
            tauto
          have h4' : ∀ x, x ∈ pA → x ∈ b :: pB → False := by
            intro x hx hy
            rcases List.mem_cons.mp hy with rfl | hy'
            · exact hv ((h3 x).mpr (Or.inl hx))
            · exact h4 x hx hy'
          have hgas' : (chainOpt (none : Option (GraphCommit C))).length +
              (chainOpt b.parentC).length ≤ g := by
            have hlen := congrArg List.length (chain_eq_parent b)
            simp only [List.length_append, List.length_singleton] at hlen
            simp only [chainOpt_none, chainOpt_some, List.length_nil] at hgas ⊢
            omega
          have hrec := ih none b.parentC (b :: visited) pA (b :: pB) h1' h2' h3' h4' hgas'
          constructor
          · intro anc qA qB h
            refine hrec.1 anc qA qB ?_
            rw [← h]
            simp only [fcaLoop]
            rw [if_neg hv]
          · intro h
            refine hrec.2 ?_
            rw [← h]
            simp only [fcaLoop]
            rw [if_neg hv]
    | some a =>
      replace h1 : chain a ++ pA = chain a0 := h1
      by_cases hva : a ∈ visited
      · -- the current a-side node was already recorded on the b-side path
        have hmem : a ∈ pB := by
          rcases (h3 a).mp hva with h' | h'
          · exact absurd h' (chain_head_not_repeated h1)
          · exact h'
        have h2n : chain b0 = chainOpt b ++ pB := h2.symm
        have hfr := found_return h1.symm h2n hmem h4
        cases b with
        | none =>
          constructor
          · intro anc qA qB h
            simp only [fcaLoop] at h
            rw [if_pos hva] at h
            simp only [Option.some.injEq, Prod.mk.injEq] at h
            obtain ⟨rfl, rfl, rfl⟩ := h
            exact ⟨h1.symm, hfr.1, hfr.2⟩
          · intro h
            simp only [fcaLoop] at h
            rw [if_pos hva] at h
            exact Option.noConfusion h
        | some b =>
          constructor
          · intro anc qA qB h
            simp only [fcaLoop] at h
            rw [if_pos hva] at h
            simp only [Option.some.injEq, Prod.mk.injEq] at h
            obtain ⟨rfl, rfl, rfl⟩ := h
            exact ⟨h1.symm, hfr.1, hfr.2⟩
          · intro h
            simp only [fcaLoop] at h
            rw [if_pos hva] at h
            exact Option.noConfusion h
      · cases b with
        | none =>
          replace h2 : pB = chain b0 := h2
          have h1' : chainOpt a.parentC ++ (a :: pA) = chain a0 := by
            rw [← h1, chain_eq_parent a, List.append_assoc]
            rfl
          have h2' : chainOpt (none : Option (GraphCommit C)) ++ pB = chain b0 := by
            simpa using h2
          have h3' : ∀ x, x ∈ a :: visited ↔ (x ∈ a :: pA ∨ x ∈ pB) := by
            intro x
            simp only [List.mem_cons, h3 x]
            tauto
          have h4' : ∀ x, x ∈ a :: pA → x ∈ pB → False := by
            intro x hx hy
            rcases List.mem_cons.mp hx with rfl | hx'
            · exact hva ((h3 x).mpr (Or.inr hy))
            · exact h4 x hx' hy
          have hgas' : (chainOpt a.parentC).length +
              (chainOpt (none : Option (GraphCommit C))).length ≤ g := by
            have hlen := congrArg List.length (chain_eq_parent a)
            simp only [List.length_append, List.length_singleton] at hlen
            simp only [chainOpt_none, chainOpt_some, List.length_nil] at hgas ⊢
            omega
          have hrec := ih a.parentC none (a :: visited) (a :: pA) pB h1' h2' h3' h4' hgas'
          constructor
          · intro anc qA qB h
            refine hrec.1 anc qA qB ?_
            rw [← h]
            simp only [fcaLoop]
            rw [if_neg hva]
          · intro h
            refine hrec.2 ?_
            rw [← h]
            simp only [fcaLoop]
            rw [if_neg hva]
        | some b =>
          replace h2 : chain b ++ pB = chain b0 := h2
          by_cases hvb : b ∈ a :: visited
          · -- the current b-side node was already recorded on the a-side path
            have hmem : b ∈ a :: pA := by
              rcases List.mem_cons.mp hvb with rfl | hvb'
              · exact List.mem_cons_self _ _
              · rcases (h3 b).mp hvb' with h' | h'
                · exact List.mem_cons_of_mem _ h'
                · exact absurd h' (chain_head_not_repeated h2)
            have h1'' : chain a0 = chainOpt a.parentC ++ (a :: pA) := by
              rw [← h1, chain_eq_parent a, List.append_assoc]
              rfl
            have h4'' : ∀ x, x ∈ pB → x ∈ a :: pA → False := by
              intro x hx hy
              rcases List.mem_cons.mp hy with rfl | hy'
              · exact hva ((h3 x).mpr (Or.inr hx))
              · exact h4 x hy' hx
            have hfr := found_return h2.symm h1'' hmem h4''
            constructor
            · intro anc qA qB h
              simp only [fcaLoop] at h
              rw [if_neg hva, if_pos hvb] at h
              simp only [Option.some.injEq, Prod.mk.injEq] at h
              obtain ⟨rfl, rfl, rfl⟩ := h
              exact ⟨hfr.1, h2.symm, fun c hca hcb => hfr.2 c hcb hca⟩
            · intro h
              simp only [fcaLoop] at h
              rw [if_neg hva, if_pos hvb] at h
              exact Option.noConfusion h
          · have h1' : chainOpt a.parentC ++ (a :: pA) = chain a0 := by
              rw [← h1, chain_eq_parent a, List.append_assoc]
              rfl
            have h2' : chainOpt b.parentC ++ (b :: pB) = chain b0 := by
              rw [← h2, chain_eq_parent b, List.append_assoc]
              rfl
            have h3' : ∀ x, x ∈ b :: a :: visited ↔ (x ∈ a :: pA ∨ x ∈ b :: pB) := by
              intro x
              simp only [List.mem_cons, h3 x]
              tauto
            have h4' : ∀ x, x ∈ a :: pA → x ∈ b :: pB → False := by
              intro x hx hy
              rcases List.mem_cons.mp hx with rfl | hx'
              · rcases List.mem_cons.mp hy with he | hy'
                · exact hvb (he ▸ List.mem_cons_self _ _)
                · exact hva ((h3 x).mpr (Or.inr hy'))
              · rcases List.mem_cons.mp hy with rfl | hy'
                · exact hvb (List.mem_cons_of_mem _ ((h3 x).mpr (Or.inl hx')))
                · exact h4 x hx' hy'
            have hgas' : (chainOpt a.parentC).length + (chainOpt b.parentC).length ≤ g := by
              have hla := congrArg List.length (chain_eq_parent a)
              have hlb := congrArg List.length (chain_eq_parent b)
              simp only [List.length_append, List.length_singleton] at hla hlb
              simp only [chainOpt_none, chainOpt_some, List.length_nil] at hgas ⊢
              omega
            have hrec := ih a.parentC b.parentC (b :: a :: visited) (a :: pA) (b :: pB)
              h1' h2' h3' h4' hgas'
            constructor
            · intro anc qA qB h
              refine hrec.1 anc qA qB ?_
              rw [← h]
              simp only [fcaLoop]
              rw [if_neg hva, if_neg hvb]
            · intro h
              refine hrec.2 ?_
              rw [← h]
              simp only [fcaLoop]
              rw [if_neg hva, if_neg hvb]

/-- Soundness of findCommonAncestor: on success, each input chain is exactly
the returned ancestor's chain followed by the corresponding returned path,
and every common ancestor of the two inputs lies on the returned ancestor's
chain (so the returned one is the unique deepest). -/
theorem findCommonAncestor_sound {a b anc : GraphCommit C}
    {qA qB : List (GraphCommit C)}
    (h : findCommonAncestor a b = some (anc, qA, qB)) :
    chain a = chain anc ++ qA ∧ chain b = chain anc ++ qB ∧
    ∀ c, c ∈ chain a → c ∈ chain b → c ∈ chain anc := by
  rw [findCommonAncestor] at h
  by_cases hab : a = b
  · rw [if_pos hab] at h
    simp only [Option.some.injEq, Prod.mk.injEq] at h
    obtain ⟨rfl, rfl, rfl⟩ := h
    subst hab
    exact ⟨by simp, by simp, fun c hc _ => hc⟩
  · rw [if_neg hab] at h
    exact (fcaLoop_spec a b ((chain a).length + (chain b).length)
      (some a) (some b) [] [] [] (by simp) (by simp) (by simp) (by simp)
      (by simp)).1 anc qA qB h

/-- findCommonAncestor fails only on chains with no common node. -/
theorem findCommonAncestor_none {a b : GraphCommit C}
    (h : findCommonAncestor a b = none) :
    ∀ c, c ∈ chain a → c ∈ chain b → False := by
  rw [findCommonAncestor] at h
  by_cases hab : a = b
  · rw [if_pos hab] at h
    exact Option.noConfusion h
  · rw [if_neg hab] at h
    exact (fcaLoop_spec a b ((chain a).length + (chain b).length)
      (some a) (some b) [] [] [] (by simp) (by simp) (by simp) (by simp)
      (by simp)).2 h

/-- findCommonAncestor succeeds whenever some common node exists. -/
theorem findCommonAncestor_isSome {a b c : GraphCommit C}
    (h1 : c ∈ chain a) (h2 : c ∈ chain b) :
    (findCommonAncestor a b).isSome := by
  cases h : findCommonAncestor a b with
  | none => exact absurd h2 (fun h2 => findCommonAncestor_none h c h1 h2)
  | some r => rfl

theorem findCommonAncestor_self (a : GraphCommit C) :
    findCommonAncestor a a = some (a, [], []) := by
  rw [findCommonAncestor, if_pos rfl]

end FcaLemmas

/-!  ## Properties of the rebase helpers -/

section RebaseLemmas

variable {C : Type} [DecidableEq C]

@[simp] theorem revision_root (r s : Nat) (ch : C) :
    (GraphCommit.root r s ch).revision = r := rfl

@[simp] theorem revision_child (r s : Nat) (ch : C) (p : GraphCommit C) :
    (GraphCommit.child r s ch p).revision = r := rfl

@[simp] theorem sessionId_child (r s : Nat) (ch : C) (p : GraphCommit C) :
    (GraphCommit.child r s ch p).sessionId = s := rfl

@[simp] theorem change_child (r s : Nat) (ch : C) (p : GraphCommit C) :
    (GraphCommit.child r s ch p).change = ch := rfl

@[simp] theorem chain_child (r s : Nat) (ch : C) (p : GraphCommit C) :
    chain (GraphCommit.child r s ch p) = chain p ++ [GraphCommit.child r s ch p] := rfl

@[simp] theorem commitData_mintCommit (p c : GraphCommit C) :
    commitData (mintCommit p c) = commitData c := rfl

theorem getLastD_snoc {α : Type} (l : List α) (x d : α) : (l ++ [x]).getLastD d = x := by
  induction l generalizing d with
  | nil => rfl
  | cons a l ih => simp [List.getLastD, ih a]

theorem findCommitIndex_none_iff (tc : GraphCommit C) :
    ∀ l : List (GraphCommit C), findCommitIndex tc l = none ↔ tc ∉ l
  | [] => by simp [findCommitIndex]
  | t :: ts => by
    simp only [findCommitIndex]
    by_cases h : t = tc
    · simp [h]
    · simp only [if_neg h, Option.map_eq_none', findCommitIndex_none_iff tc ts,
        List.mem_cons]
      constructor
      · intro hn hm
        rcases hm with hm | hm
        · exact h hm.symm
        · exact hn hm
      · intro hn hm
        exact hn (Or.inr hm)

theorem findCommitIndex_decomp (tc : GraphCommit C) :
    ∀ (l : List (GraphCommit C)) (i : Nat), findCommitIndex tc l = some i →
      ∃ u v, l = u ++ tc :: v ∧ u.length = i
  | [], i, h => by simp [findCommitIndex] at h
  | t :: ts, i, h => by
    simp only [findCommitIndex] at h
    by_cases ht : t = tc
    · rw [if_pos ht] at h
      simp only [Option.some.injEq] at h
      exact ⟨[], ts, by simp [ht], by simp [h]⟩
    · rw [if_neg ht] at h
      cases hr : findCommitIndex tc ts with
      | none => rw [hr] at h; simp at h
      | some j =>
        rw [hr] at h
        simp only [Option.map_some', Option.some.injEq] at h
        obtain ⟨u, v, hl, hu⟩ := findCommitIndex_decomp tc ts j hr
        exact ⟨t :: u, v, by simp [hl], by simp [hu, h]⟩

theorem cancelScan_bound (tci : Nat) :
    ∀ (l : List (GraphCommit C)) (set : List Nat) (nbi i : Nat),
      nbi ≤ (cancelScan tci set nbi i l).2 ∧
      ((cancelScan tci set nbi i l).2 = nbi ∨
        (cancelScan tci set nbi i l).2 < i + l.length)
  | [], set, nbi, i => by simp [cancelScan]
  | t :: ts, set, nbi, i => by
    simp only [cancelScan, List.length_cons]
    by_cases hm : t.revision ∈ set
    · simp only [if_pos hm]
      obtain ⟨ih1, ih2⟩ :=
        cancelScan_bound tci ts (set.erase t.revision) (max nbi i) (i + 1)
      constructor
      · omega
      · omega
    · simp only [if_neg hm]
      by_cases hi : tci ≤ i
      · simp [if_pos hi]
      · simp only [if_neg hi]
        obtain ⟨ih1, ih2⟩ := cancelScan_bound tci ts set nbi (i + 1)
        constructor
        · omega
        · omega

theorem list_getD_decomp {α : Type} (d : α) :
    ∀ (l : List α) (n : Nat), n < l.length →
      l = l.take n ++ l.getD n d :: l.drop (n + 1) ∧ (l.take n).length = n
  | [], n, h => absurd h (by simp)
  | a :: l, 0, _ => ⟨by simp [List.getD], rfl⟩
  | a :: l, n + 1, h => by
    obtain ⟨h1, h2⟩ := list_getD_decomp d l n (by simpa using h)
    constructor
    · show a :: l = a :: (l.take n ++ (a :: l).getD (n + 1) d :: l.drop (n + 1))
      rw [show (a :: l).getD (n + 1) d = l.getD n d from rfl, ← h1]
    · simpa using h2

theorem take_succ_getD {α : Type} (d : α) :
    ∀ (l : List α) (n : Nat), n < l.length → l.take (n + 1) = l.take n ++ [l.getD n d]
  | [], n, h => absurd h (by simp)
  | a :: l, 0, _ => by simp [List.getD]
  | a :: l, n + 1, h => by
    show a :: l.take (n + 1) = a :: (l.take n ++ [(a :: l).getD (n + 1) d])
    rw [show (a :: l).getD (n + 1) d = l.getD n d from rfl,
      take_succ_getD d l n (by simpa using h)]

theorem getLastD_take_getD {α : Type} (d : α) (l : List α) (n : Nat) (h : n < l.length) :
    (l.take (n + 1)).getLastD d = l.getD n d := by
  rw [take_succ_getD d l n h, getLastD_snoc]

theorem mem_take_append {α : Type} (v : List α) (x : α) :
    ∀ (u : List α) (n : Nat), u.length < n → x ∈ (u ++ x :: v).take n
  | [], n, hn => by
    cases n with
    | zero => omega
    | succ m => simp
  | a :: u, n, hn => by
    cases n with
    | zero => omega
    | succ m =>
      simp only [List.cons_append, List.take_succ_cons, List.mem_cons]
      exact Or.inr (mem_take_append v x u m (by simpa using hn))

/-- Commits of a chain prefix list are positioned by their own chains: the
commit at index n of the residual target path has the ancestor's chain plus
the first n+1 path entries as its own chain. -/
theorem chain_getD_take {th anc : GraphCommit C} {tp : List (GraphCommit C)}
    (h : chain th = chain anc ++ tp) {n : Nat} (hn : n < tp.length)
    (d : GraphCommit C) :
    chain (tp.getD n d) = chain anc ++ tp.take (n + 1) := by
  obtain ⟨hdec, hlen⟩ := list_getD_decomp d tp n hn
  have h2 : chain th = (chain anc ++ tp.take n) ++ tp.getD n d :: tp.drop (n + 1) := by
    rw [h, List.append_assoc, ← hdec]
  have h3 := chain_prefix_of_mem h2
  rw [h3, take_succ_getD d tp n hn, ← List.append_assoc]

theorem pushReparented_data (nb : GraphCommit C) :
    ∀ (cs acc : List (GraphCommit C)),
      (pushReparented nb acc cs).map commitData =
        acc.map commitData ++ cs.map commitData
  | [], acc => by simp [pushReparented]
  | c :: cs, acc => by
    simp only [pushReparented]
    rw [pushReparented_data nb cs (acc ++ [mintCommit (acc.getLastD nb) c])]
    simp

theorem pushReparented_chain (nb anc : GraphCommit C) :
    ∀ (cs acc : List (GraphCommit C)),
      chain (acc.getLastD nb) = chain anc ++ acc →
      chain ((pushReparented nb acc cs).getLastD nb) =
        chain anc ++ pushReparented nb acc cs
  | [], acc, h => by simpa [pushReparented] using h
  | c :: cs, acc, h => by
    simp only [pushReparented]
    apply pushReparented_chain nb anc cs
    rw [getLastD_snoc]
    show chain (GraphCommit.child c.revision c.sessionId c.change (acc.getLastD nb)) =
      chain anc ++ (acc ++ [mintCommit (acc.getLastD nb) c])
    rw [chain_child, h, List.append_assoc]
    rfl

theorem rebaseLoop_chain (cr : ChangeRebaser C) (set : List Nat) (anc : GraphCommit C) :
    ∀ (cs : List (GraphCommit C)) (nh : GraphCommit C) (inv : List (TaggedChange C))
      (nsc trp : List (GraphCommit C)) (fresh : Nat),
      chain nh = chain anc ++ nsc →
      chain (rebaseLoop cr set cs nh inv nsc trp fresh).1 =
        chain anc ++ (rebaseLoop cr set cs nh inv nsc trp fresh).2.2.1
  | [], nh, inv, nsc, trp, fresh, h => by simpa [rebaseLoop] using h
  | c :: cs, nh, inv, nsc, trp, fresh, h => by
    simp only [rebaseLoop]
    by_cases hm : c.revision ∈ set
    · simp only [if_pos hm]
      apply rebaseLoop_chain cr set anc cs
      rw [chain_child, h, List.append_assoc]
    · simp only [if_neg hm]
      exact rebaseLoop_chain cr set anc cs nh _ nsc trp (fresh + 1) h

theorem rebaseLoop_outputs (cr : ChangeRebaser C) (set : List Nat) :
    ∀ (cs : List (GraphCommit C)) (nh : GraphCommit C) (inv : List (TaggedChange C))
      (nsc trp : List (GraphCommit C)) (fresh : Nat),
      (rebaseLoop cr set cs nh inv nsc trp fresh).2.2.1.map GraphCommit.revision =
        nsc.map GraphCommit.revision ++
          (cs.filter (fun c => decide (c.revision ∈ set))).map GraphCommit.revision ∧
      (rebaseLoop cr set cs nh inv nsc trp fresh).2.1 =
        rollbackInverses cr fresh cs ++ inv
  | [], nh, inv, nsc, trp, fresh => by simp [rebaseLoop, rollbackInverses]
  | c :: cs, nh, inv, nsc, trp, fresh => by
    simp only [rebaseLoop, rollbackInverses, List.filter_cons]
    by_cases hm : c.revision ∈ set
    · simp only [if_pos hm, decide_eq_true hm]
      obtain ⟨ih1, ih2⟩ := rebaseLoop_outputs cr set cs
        (GraphCommit.child c.revision c.sessionId
          (rebaseChangeOverChanges cr c.change (inv ++ trp.map toTagged)) nh)
        (tagRollbackInverse (cr.invert c true) fresh c.revision :: inv)
        (nsc ++ [GraphCommit.child c.revision c.sessionId
          (rebaseChangeOverChanges cr c.change (inv ++ trp.map toTagged)) nh])
        (trp ++ [setChange c (rebaseChangeOverChanges cr c.change (inv ++ trp.map toTagged))])
        (fresh + 1)
      constructor
      · rw [ih1]
        simp [List.append_assoc]
      · rw [ih2]
        simp [List.append_assoc]
    · simp only [if_neg hm, decide_eq_false hm]
      obtain ⟨ih1, ih2⟩ := rebaseLoop_outputs cr set cs nh
        (tagRollbackInverse (cr.invert c true) fresh c.revision :: inv) nsc trp (fresh + 1)
      constructor
      · simpa using ih1
      · rw [ih2]
        simp [List.append_assoc]

end RebaseLemmas

/-!  ## Branch-level equations of rebaseBranch -/

section RebaseBranchLemmas

variable {C : Type} [DecidableEq C]

/-- The early return of rebaseBranch when the target commit is not on the
target path but is related to the target head (utils.ts lines 130-143). -/
theorem rebaseBranch_eq_not_found (cr : ChangeRebaser C)
    {s tc th anc : GraphCommit C} {sp tp : List (GraphCommit C)} (fresh : Nat)
    (hfca : findCommonAncestor s th = some (anc, sp, tp))
    (hidx : findCommitIndex tc tp = none)
    (hrel : (findCommonAncestor tc th).isSome = true) :
    rebaseBranch cr s tc th fresh = some (s, none, ⟨anc, [], []⟩) := by
  simp only [rebaseBranch, hfca, hidx, hrel, if_true]

/-- The fast-forward return of rebaseBranch when the stripped target rebase
path is empty (utils.ts lines 183-198). -/
theorem rebaseBranch_eq_fastpath (cr : ChangeRebaser C)
    {s tc th anc : GraphCommit C} {sp tp : List (GraphCommit C)} {i : Nat} (fresh : Nat)
    (hfca : findCommonAncestor s th = some (anc, sp, tp))
    (hidx : findCommitIndex tc tp = some i)
    (hstrip : (strippedOf sp tp i).2 = []) :
    rebaseBranch cr s tc th fresh =
      some ((pushReparented (newBaseOf anc sp tp i) (targetRebasePathOf sp tp i)
          (strippedOf sp tp i).1).getLastD (newBaseOf anc sp tp i),
        none,
        ⟨newBaseOf anc sp tp i, sp,
          pushReparented (newBaseOf anc sp tp i) (targetRebasePathOf sp tp i)
            (strippedOf sp tp i).1⟩) := by
  have hstrip' : (stripSharedStart sp
      (tp.take ((cancelScan i (sourceRevs sp) i 0 tp).2 + 1))).2 = [] := hstrip
  simp only [rebaseBranch, hfca, hidx]
  rw [if_pos hstrip']
  rfl

/-- The main-loop return of rebaseBranch when the stripped target rebase path
is nonempty (utils.ts lines 200-232). -/
theorem rebaseBranch_eq_loop (cr : ChangeRebaser C)
    {s tc th anc : GraphCommit C} {sp tp : List (GraphCommit C)} {i : Nat} (fresh : Nat)
    (hfca : findCommonAncestor s th = some (anc, sp, tp))
    (hidx : findCommitIndex tc tp = some i)
    (hstrip : (strippedOf sp tp i).2 ≠ []) :
    rebaseBranch cr s tc th fresh =
      some ((rebaseLoop cr (scanState sp tp i).1 (strippedOf sp tp i).1
          (newBaseOf anc sp tp i) [] (targetRebasePathOf sp tp i)
          (strippedOf sp tp i).2 fresh).1,
        some (cr.compose
          ((rebaseLoop cr (scanState sp tp i).1 (strippedOf sp tp i).1
              (newBaseOf anc sp tp i) [] (targetRebasePathOf sp tp i)
              (strippedOf sp tp i).2 fresh).2.1 ++
            (rebaseLoop cr (scanState sp tp i).1 (strippedOf sp tp i).1
              (newBaseOf anc sp tp i) [] (targetRebasePathOf sp tp i)
              (strippedOf sp tp i).2 fresh).2.2.2.1.map toTagged)),
        ⟨newBaseOf anc sp tp i, sp,
          (rebaseLoop cr (scanState sp tp i).1 (strippedOf sp tp i).1
            (newBaseOf anc sp tp i) [] (targetRebasePathOf sp tp i)
            (strippedOf sp tp i).2 fresh).2.2.1⟩) := by
  have hstrip' : ¬ (stripSharedStart sp
      (tp.take ((cancelScan i (sourceRevs sp) i 0 tp).2 + 1))).2 = [] := hstrip
  simp only [rebaseBranch, hfca, hidx]
  rw [if_neg hstrip']
  rfl

/-- The index chosen by the cancel-out scan stays within the target path and
at or past the target commit index. -/
theorem scanState_bounds (sp : List (GraphCommit C)) {tp : List (GraphCommit C)}
    {i : Nat} (hi : i < tp.length) :
    i ≤ (scanState sp tp i).2 ∧ (scanState sp tp i).2 < tp.length := by
  obtain ⟨h1, h2⟩ := cancelScan_bound i tp (sourceRevs sp) i 0
  simp only [scanState]
  constructor
  · exact h1
  · rcases h2 with h2 | h2
    · omega
    · simpa using h2

/-- The new base chosen by rebaseBranch carries the ancestor chain plus the
target rebase path as its own ancestor chain. -/
theorem chain_newBaseOf {th anc : GraphCommit C} {sp tp : List (GraphCommit C)}
    {i : Nat} (h : chain th = chain anc ++ tp) (hi : i < tp.length) :
    chain (newBaseOf anc sp tp i) = chain anc ++ targetRebasePathOf sp tp i := by
  exact chain_getD_take h (scanState_bounds sp hi).2 anc

end RebaseBranchLemmas

section RebaseBranchLemmas2

variable {C : Type} [DecidableEq C]

theorem getD_default_irrel {α : Type} (l : List α) {n : Nat} (h : n < l.length)
    (d d' : α) : l.getD n d = l.getD n d' := by
  obtain ⟨h1, -⟩ := list_getD_decomp d l n h
  obtain ⟨h2, -⟩ := list_getD_decomp d' l n h
  have h3 := List.append_cancel_left (h1.symm.trans h2)
  injection h3

theorem getLastD_targetRebasePath {anc : GraphCommit C} {sp tp : List (GraphCommit C)}
    {i : Nat} (hi : i < tp.length) :
    (targetRebasePathOf sp tp i).getLastD (newBaseOf anc sp tp i) =
      newBaseOf anc sp tp i := by
  rw [targetRebasePathOf,
    getLastD_take_getD (newBaseOf anc sp tp i) tp (scanState sp tp i).2
      (scanState_bounds sp hi).2,
    getD_default_irrel tp (scanState_bounds sp hi).2 _ anc]
  rfl

theorem targetRebasePath_ne_nil (sp : List (GraphCommit C))
    {tp : List (GraphCommit C)} {i : Nat}
    (hi : i < tp.length) : targetRebasePathOf sp tp i ≠ [] := by
  apply List.ne_nil_of_length_pos
  rw [targetRebasePathOf, List.length_take]
  omega

theorem findCommitIndex_lt_length {tc : GraphCommit C} {tp : List (GraphCommit C)}
    {i : Nat} (hidx : findCommitIndex tc tp = some i) : i < tp.length := by
  obtain ⟨u, v, hl, hu⟩ := findCommitIndex_decomp tc tp i hidx
  rw [hl]
  simp [← hu]

theorem tc_mem_chain_newBase {th anc tc : GraphCommit C} {sp tp : List (GraphCommit C)}
    {i : Nat} (hB : chain th = chain anc ++ tp)
    (hidx : findCommitIndex tc tp = some i) :
    tc ∈ chain (newBaseOf anc sp tp i) := by
  obtain ⟨u, v, hl, hu⟩ := findCommitIndex_decomp tc tp i hidx
  have hi : i < tp.length := findCommitIndex_lt_length hidx
  have hbounds := scanState_bounds sp hi
  rw [chain_newBaseOf hB hi]
  apply List.mem_append_right
  rw [targetRebasePathOf]
  generalize hN : (scanState sp tp i).2 + 1 = N
  rw [hl]
  exact mem_take_append v tc u N (by omega)

/-- The chain decomposition of the head and new source commits returned on
the fast-forward path. -/
theorem fastpath_chain {th anc : GraphCommit C} {sp tp : List (GraphCommit C)}
    {i : Nat} (hB : chain th = chain anc ++ tp) (hi : i < tp.length) :
    chain ((pushReparented (newBaseOf anc sp tp i) (targetRebasePathOf sp tp i)
        (strippedOf sp tp i).1).getLastD (newBaseOf anc sp tp i)) =
      chain anc ++ pushReparented (newBaseOf anc sp tp i) (targetRebasePathOf sp tp i)
        (strippedOf sp tp i).1 := by
  apply pushReparented_chain
  rw [getLastD_targetRebasePath hi]
  exact chain_newBaseOf hB hi

theorem ne_nil_of_map_append {α β : Type} {l acc : List α} {f : α → β}
    {rest : List β} (h : l.map f = acc.map f ++ rest) (hacc : acc ≠ []) :
    l ≠ [] := by
  intro hnil
  rw [hnil] at h
  have hlen := congrArg List.length h
  simp only [List.map_nil, List.length_nil, List.length_append, List.length_map] at hlen
  exact hacc (List.length_eq_zero.mp (by omega))

end RebaseBranchLemmas2

/-!  ## The claims -/

section Claims

variable {C : Type} [DecidableEq C]

/-- C1: concrete cancel-out scenario.  With root A, target branch A-B-C and
source branch A-B2-D, where B2 carries B's revision tag 1 but payload +5,
rebaseBranch with sourceHead D, targetCommit C and targetHead C returns
newBase C (not advanced past C), a new source head carrying D's revision tag
3 whose change is D's change rebased over the single target commit C (and not
over B again, since B and B2 cancel out), deletedSourceCommits [B2, D] in
ancestor-to-descendant order, and newSourceCommits [B, C, D-rebased]. -/
theorem cancelOut_scenario_spec :
    rebaseBranch crInt cD cC cC 100 =
      some (.child 3 0 (rebaseChangeOverChanges crInt cD.change [toTagged cC]) cC,
        some 22,
        ⟨cC, [cB2, cD],
          [cB, cC, .child 3 0 (rebaseChangeOverChanges crInt cD.change [toTagged cC]) cC]⟩) ∧
    rebaseChangeOverChanges crInt cD.change [toTagged cC] = 23 := by decide

/-- Counterexample to C2: in the scenario with target branch A-X-B-T (tags
0,1,2,4) and source branch A-B2-D where B2 shares B's tag 2, commit B2 is
cancelled out yet its rollback inverse IS computed and consulted: the rebased
change of D is 53, which is exactly D's change rebased over the rollback
inverse of B2 followed by the target rebase path, and differs from 103, the
value the claim predicts if no inverse of a cancelled commit were used. -/
theorem rebaseLoop_inverts_cancelled_cex :
    rebaseBranch crInt c2D c2T c2T 100 =
      some (.child 3 0 53 c2T, some 55,
        ⟨c2T, [c2B2, c2D], [c2X, c2B, c2T, .child 3 0 53 c2T]⟩) ∧
    rebaseChangeOverChanges crInt c2D.change
      (inverseFromCommit crInt c2B2 100 :: [c2X, c2B, c2T].map toTagged) = 53 ∧
    rebaseChangeOverChanges crInt c2D.change ([c2X, c2B, c2T].map toTagged) = 103 ∧
    (53 : Int) ≠ 103 := by decide

/-- C2 as amended: in the per-commit rebase loop of rebaseBranch, only source
commits whose revision survived the cancel-out scan are re-emitted (the
revisions of the emitted new source commits are exactly the initial ones
followed by the surviving source revisions, so no commit is minted for a
cancelled-out source commit), but every source commit, cancelled or not,
contributes a rollback inverse, prepended most-recent-first to the inverses
list used by later source commits. -/
theorem rebaseLoop_skip_spec (cr : ChangeRebaser C) (sourceSet : List Nat)
    (cs : List (GraphCommit C)) (nh : GraphCommit C) (inv : List (TaggedChange C))
    (nsc trp : List (GraphCommit C)) (fresh : Nat) :
    (rebaseLoop cr sourceSet cs nh inv nsc trp fresh).2.2.1.map GraphCommit.revision =
      nsc.map GraphCommit.revision ++
        (cs.filter (fun c => decide (c.revision ∈ sourceSet))).map GraphCommit.revision ∧
    (rebaseLoop cr sourceSet cs nh inv nsc trp fresh).2.1 =
      rollbackInverses cr fresh cs ++ inv :=
  rebaseLoop_outputs cr sourceSet cs nh inv nsc trp fresh

/-- C4: for every pair of commits with a common ancestor, findCommonAncestor
returns the unique deepest common ancestor together with the two out-paths in
ancestor-to-descendant order, exclusive of the ancestor and inclusive of the
descendant: prepending the ancestor's own chain to a path reconstructs that
descendant's parent chain exactly, every common ancestor of the two inputs
lies on the returned ancestor's chain, and when the two arguments are the
same commit the ancestor is that commit and both paths are empty. -/
theorem findCommonAncestor_spec (a b c0 : GraphCommit C)
    (h : c0 ∈ chain a) (h' : c0 ∈ chain b) :
    ∃ anc qA qB, findCommonAncestor a b = some (anc, qA, qB) ∧
      chain a = chain anc ++ qA ∧ chain b = chain anc ++ qB ∧
      (∀ c, c ∈ chain a → c ∈ chain b → c ∈ chain anc) ∧
      (a = b → anc = a ∧ qA = [] ∧ qB = []) := by
  cases hr : findCommonAncestor a b with
  | none => exact absurd h' (fun h' => findCommonAncestor_none hr c0 h h')
  | some r =>
    obtain ⟨anc, qA, qB⟩ := r
    obtain ⟨hA, hB, hdeep⟩ := findCommonAncestor_sound hr
    refine ⟨anc, qA, qB, rfl, hA, hB, hdeep, ?_⟩
    intro hab
    subst hab
    rw [findCommonAncestor_self a] at hr
    simp only [Option.some.injEq, Prod.mk.injEq] at hr
    exact ⟨hr.1.symm, hr.2.1.symm, hr.2.2.symm⟩

/-- Witness for C4 at the cancel-out scenario commits: D and C share the
common ancestor A, and the theorem instantiates there. -/
theorem findCommonAncestor_spec_witness :
    (cA ∈ chain cD ∧ cA ∈ chain cC) ∧
    (∃ anc qA qB, findCommonAncestor cD cC = some (anc, qA, qB) ∧
      chain cD = chain anc ++ qA ∧ chain cC = chain anc ++ qB ∧
      (∀ c, c ∈ chain cD → c ∈ chain cC → c ∈ chain anc) ∧
      (cD = cC → anc = cD ∧ qA = [] ∧ qB = [])) :=
  ⟨⟨by decide, by decide⟩, findCommonAncestor_spec cD cC cA (by decide) (by decide)⟩

/-- C6: when source head and target head share no commit reachable by parent
links, both rebaseBranch and rebaseChange fail their precondition assertion
(modelled as none) and return no result. -/
theorem unrelated_branches_spec (cr : ChangeRebaser C) (ch0 : C)
    {s th : GraphCommit C} (tc : GraphCommit C) (fresh : Nat)
    (h : ∀ c, c ∈ chain s → c ∈ chain th → False) :
    rebaseBranch cr s tc th fresh = none ∧ rebaseChange cr ch0 s th fresh = none := by
  have hfca : findCommonAncestor s th = none := by
    cases hr : findCommonAncestor s th with
    | none => rfl
    | some r =>
      obtain ⟨anc, qA, qB⟩ := r
      obtain ⟨hA, hB, -⟩ := findCommonAncestor_sound hr
      exact (h anc (by rw [hA]; exact List.mem_append_left _ (mem_chain_self anc))
        (by rw [hB]; exact List.mem_append_left _ (mem_chain_self anc))).elim
  constructor
  · simp only [rebaseBranch, hfca]
  · simp only [rebaseChange, hfca]

/-- Witness for C6: two distinct roots have disjoint chains, and both
operations return none there. -/
theorem unrelated_branches_spec_witness :
    (∀ c, c ∈ chain cA → c ∈ chain cR → False) ∧
    (rebaseBranch crInt cA cB cR 5 = none ∧ rebaseChange crInt 7 cA cR 5 = none) :=
  ⟨by decide, unrelated_branches_spec crInt 7 cB 5 (by decide)⟩

/-- C7: when the target commit is at or behind the common ancestor (on the
ancestor's own chain), rebaseBranch returns the unchanged source head, an
undefined cumulative change, empty deleted and new commit lists, and the
common ancestor as the new base. -/
theorem target_behind_ancestor_spec (cr : ChangeRebaser C)
    {s tc th anc : GraphCommit C} {sp tp : List (GraphCommit C)} (fresh : Nat)
    (hfca : findCommonAncestor s th = some (anc, sp, tp))
    (htc : tc ∈ chain anc) :
    rebaseBranch cr s tc th fresh = some (s, none, ⟨anc, [], []⟩) := by
  obtain ⟨hA, hB, -⟩ := findCommonAncestor_sound hfca
  have htp : tc ∉ tp := by
    intro hm
    have hn := chain_nodup th
    rw [hB, List.nodup_append] at hn
    exact hn.2.2 htc hm
  have hth : tc ∈ chain th := by
    rw [hB]
    exact List.mem_append_left _ htc
  exact rebaseBranch_eq_not_found cr fresh hfca
    ((findCommitIndex_none_iff tc tp).mpr htp)
    (findCommonAncestor_isSome (mem_chain_self tc) hth)

/-- Witness for C7: with source S and target T both children of A, rebasing
onto target commit A (the ancestor itself) returns the unchanged source head
and the empty diff based at A. -/
theorem target_behind_ancestor_spec_witness :
    (findCommonAncestor c5S c5T = some (cA, [c5S], [c5T]) ∧ cA ∈ chain cA) ∧
    rebaseBranch crInt c5S cA c5T 7 = some (c5S, none, ⟨cA, [], []⟩) :=
  ⟨⟨by decide, by decide⟩,
    target_behind_ancestor_spec crInt 7
      (show findCommonAncestor c5S c5T = some (cA, [c5S], [c5T]) by decide)
      (by decide)⟩

end Claims

section Claims2

variable {C : Type} [DecidableEq C]

/-- Counterexample to C3: with source path S1-S2 a strict prefix, by revision
tag and in order, of the target rebase path T1-T2-T3, the result is not pure
reparenting and the algebra IS invoked: two algebras differing only in
compose give different results, and the output commit T1 carries a (tag,
payload) pair that matches no commit of the source branch. -/
theorem fastForward_strict_source_cex :
    findCommonAncestor c3S2 c3T3 = some (cA, [c3S1, c3S2], [c3T1, c3T2, c3T3]) ∧
    findCommitIndex c3T3 [c3T1, c3T2, c3T3] = some 2 ∧
    targetRebasePathOf [c3S1, c3S2] [c3T1, c3T2, c3T3] 2 = [c3T1, c3T2, c3T3] ∧
    [c3T1, c3T2, c3T3].map GraphCommit.revision =
      [c3S1, c3S2].map GraphCommit.revision ++ [3] ∧
    rebaseBranch crInt c3S2 c3T3 c3T3 50 ≠ rebaseBranch crInt2 c3S2 c3T3 c3T3 50 ∧
    (rebaseBranch crInt c3S2 c3T3 c3T3 50).map
        (fun r => r.2.2.newSourceCommits.map commitData) =
      some [(1, 0, 1), (2, 0, 2), (3, 0, 3)] ∧
    commitData c3T1 ∉ (chain c3S2).map commitData := by decide

/-- C3 as amended: whenever the target rebase path is empty after stripping
the common revision-tag prefix (equivalently: the target rebase path is, by
tag and in order, a prefix of the source path), rebaseBranch is pure
reparenting.  The result is the same for every change algebra (so rebase,
invert and compose are never consulted), the cumulative change is undefined,
every output commit keeps the revision, session id and change of the
corresponding input commit in order, and the outputs chain off the common
ancestor with the new head as last element. -/
theorem fastForward_target_stripped_spec
    {s tc th anc : GraphCommit C} {sp tp : List (GraphCommit C)} {i : Nat} (fresh : Nat)
    (hfca : findCommonAncestor s th = some (anc, sp, tp))
    (hidx : findCommitIndex tc tp = some i)
    (hstrip : (strippedOf sp tp i).2 = []) :
    ∃ head rc,
      (∀ cr : ChangeRebaser C, rebaseBranch cr s tc th fresh = some (head, none, rc)) ∧
      rc.newSourceCommits.map commitData =
        (targetRebasePathOf sp tp i).map commitData ++
          (strippedOf sp tp i).1.map commitData ∧
      chain head = chain anc ++ rc.newSourceCommits := by
  obtain ⟨hA, hB, -⟩ := findCommonAncestor_sound hfca
  have hi : i < tp.length := findCommitIndex_lt_length hidx
  refine ⟨_, _, fun cr => rebaseBranch_eq_fastpath cr fresh hfca hidx hstrip, ?_, ?_⟩
  · exact pushReparented_data _ _ _
  · exact fastpath_chain hB hi

/-- Witness for C3 as amended, at the fast-forward scenario: source A-B2-D is
rebased onto target commit B of branch A-B-C, where B2 carries B's tag; the
target rebase path strips away entirely and D is reparented onto B with its
payload unchanged, for every algebra. -/
theorem fastForward_target_stripped_spec_witness :
    (findCommonAncestor cD cC = some (cA, [cB2, cD], [cB, cC]) ∧
      findCommitIndex cB [cB, cC] = some 0 ∧
      (strippedOf [cB2, cD] [cB, cC] 0).2 = []) ∧
    (∃ head rc,
      (∀ cr : ChangeRebaser Int, rebaseBranch cr cD cB cC 70 = some (head, none, rc)) ∧
      rc.newSourceCommits.map commitData =
        (targetRebasePathOf [cB2, cD] [cB, cC] 0).map commitData ++
          (strippedOf [cB2, cD] [cB, cC] 0).1.map commitData ∧
      chain head = chain cA ++ rc.newSourceCommits) :=
  ⟨⟨by decide, by decide, by decide⟩,
    fastForward_target_stripped_spec 70
      (show findCommonAncestor cD cC = some (cA, [cB2, cD], [cB, cC]) by decide)
      (show findCommitIndex cB [cB, cC] = some 0 by decide)
      (show (strippedOf [cB2, cD] [cB, cC] 0).2 = ([] : List (GraphCommit Int))
        by decide)⟩

/-- Counterexample to C5: the target commit X sits on a side branch off A, so
it is related to the target head T without lying on the target branch; the
relatedness assertion passes, the call succeeds, and the returned newBase A
is a strict ancestor of the target commit X. -/
theorem newBase_strict_ancestor_cex :
    rebaseBranch crInt c5S c5X c5T 10 = some (c5S, none, ⟨cA, [], []⟩) ∧
    cA ∈ chain c5X ∧ cA ≠ c5X ∧ c5X ∉ chain cA := by decide

/-- C5 as amended: for every successful rebaseBranch call whose target commit
lies on the target branch (is reachable from the target head by parent
links), the returned newBase is the target commit itself or a descendant of
it: the target commit lies on newBase's ancestor chain.  (The algorithm may
still advance newBase past the nominal target commit.) -/
theorem newBase_on_target_spec (cr : ChangeRebaser C)
    {s tc th head : GraphCommit C} {ch : Option C} {rc : RebasedCommits C}
    (fresh : Nat) (htc : tc ∈ chain th)
    (h : rebaseBranch cr s tc th fresh = some (head, ch, rc)) :
    tc ∈ chain rc.newBase := by
  cases hfca : findCommonAncestor s th with
  | none => simp [rebaseBranch, hfca] at h
  | some r =>
    obtain ⟨anc, sp, tp⟩ := r
    obtain ⟨hA, hB, -⟩ := findCommonAncestor_sound hfca
    cases hidx : findCommitIndex tc tp with
    | none =>
      have htcanc : tc ∈ chain anc := by
        have hnotin : tc ∉ tp := (findCommitIndex_none_iff tc tp).mp hidx
        rw [hB] at htc
        rcases List.mem_append.mp htc with h' | h'
        · exact h'
        · exact absurd h' hnotin
      have heq := rebaseBranch_eq_not_found cr fresh hfca hidx
        (findCommonAncestor_isSome (mem_chain_self tc) (by rw [hB] at htc ⊢; exact htc))
      rw [heq] at h
      simp only [Option.some.injEq, Prod.mk.injEq] at h
      rw [← h.2.2]
      exact htcanc
    | some i =>
      by_cases hstrip : (strippedOf sp tp i).2 = []
      · have heq := rebaseBranch_eq_fastpath cr fresh hfca hidx hstrip
        rw [heq] at h
        simp only [Option.some.injEq, Prod.mk.injEq] at h
        rw [← h.2.2]
        exact tc_mem_chain_newBase hB hidx
      · have heq := rebaseBranch_eq_loop cr fresh hfca hidx hstrip
        rw [heq] at h
        simp only [Option.some.injEq, Prod.mk.injEq] at h
        rw [← h.2.2]
        exact tc_mem_chain_newBase hB hidx

/-- Witness for C5 as amended, at the cancel-out scenario: rebasing D onto
target commit C of branch A-B-C succeeds and newBase is C itself. -/
theorem newBase_on_target_spec_witness :
    (cC ∈ chain cC ∧
      rebaseBranch crInt cD cC cC 100 =
        some (.child 3 0 23 cC, some 22,
          ⟨cC, [cB2, cD], [cB, cC, .child 3 0 23 cC]⟩)) ∧
    cC ∈ chain (RebasedCommits.mk cC [cB2, cD]
      [cB, cC, .child 3 0 23 cC]).newBase :=
  ⟨⟨by decide, by decide⟩,
    newBase_on_target_spec crInt 100 (by decide)
      (show rebaseBranch crInt cD cC cC 100 =
          some (.child 3 0 23 cC, some 22,
            ⟨cC, [cB2, cD], [cB, cC, .child 3 0 23 cC]⟩)
        by decide)⟩

/-- Counterexample to C8: in the cancel-out scenario the returned
newSourceCommits list is [B, C, D-rebased] with newBase C, and its first
commit B has parent A, which is neither a preceding commit of the list (there
is none) nor the returned newBase C. -/
theorem parent_links_cex :
    rebaseBranch crInt cD cC cC 100 =
      some (.child 3 0 23 cC, some 22,
        ⟨cC, [cB2, cD], [cB, cC, .child 3 0 23 cC]⟩) ∧
    cB.parentC = some cA ∧ cA ≠ cC := by decide

/-- C8 as amended: for every successful rebaseBranch call whose target commit
is found on the target path, the returned newSourceCommits form one unbroken
parent chain rooted at the common ancestor of the two branches (each commit's
parent is the preceding list entry, the first one's parent being the
ancestor), and the returned new source head is the last element of that
chain; the list is never empty.  Input commits are never mutated: the
embedding is purely functional and all output commits are freshly built
values. -/
theorem parent_links_spec (cr : ChangeRebaser C)
    {s tc th anc head : GraphCommit C} {ch : Option C} {rc : RebasedCommits C}
    {sp tp : List (GraphCommit C)} {i : Nat} (fresh : Nat)
    (hfca : findCommonAncestor s th = some (anc, sp, tp))
    (hidx : findCommitIndex tc tp = some i)
    (h : rebaseBranch cr s tc th fresh = some (head, ch, rc)) :
    chain head = chain anc ++ rc.newSourceCommits ∧ rc.newSourceCommits ≠ [] := by
  obtain ⟨hA, hB, -⟩ := findCommonAncestor_sound hfca
  have hi : i < tp.length := findCommitIndex_lt_length hidx
  have htrp := targetRebasePath_ne_nil sp hi
  by_cases hstrip : (strippedOf sp tp i).2 = []
  · have heq := rebaseBranch_eq_fastpath cr fresh hfca hidx hstrip
    rw [heq] at h
    simp only [Option.some.injEq, Prod.mk.injEq] at h
    obtain ⟨hh, -, hrc⟩ := h
    rw [← hh, ← hrc]
    exact ⟨fastpath_chain hB hi,
      ne_nil_of_map_append (pushReparented_data _ _ _) htrp⟩
  · have heq := rebaseBranch_eq_loop cr fresh hfca hidx hstrip
    rw [heq] at h
    simp only [Option.some.injEq, Prod.mk.injEq] at h
    obtain ⟨hh, -, hrc⟩ := h
    rw [← hh, ← hrc]
    refine ⟨rebaseLoop_chain cr (scanState sp tp i).1 anc _ _ _ _ _ _
      (chain_newBaseOf hB hi), ?_⟩
    exact ne_nil_of_map_append
      (rebaseLoop_outputs cr (scanState sp tp i).1 (strippedOf sp tp i).1
        (newBaseOf anc sp tp i) [] (targetRebasePathOf sp tp i)
        (strippedOf sp tp i).2 fresh).1 htrp

/-- Witness for C8 as amended, at the second scenario: the four returned new
source commits X, B, T, D-rebased chain off the ancestor A and end at the
returned head. -/
theorem parent_links_spec_witness :
    (findCommonAncestor c2D c2T = some (cA, [c2B2, c2D], [c2X, c2B, c2T]) ∧
      findCommitIndex c2T [c2X, c2B, c2T] = some 2 ∧
      rebaseBranch crInt c2D c2T c2T 100 =
        some (.child 3 0 53 c2T, some 55,
          ⟨c2T, [c2B2, c2D], [c2X, c2B, c2T, .child 3 0 53 c2T]⟩)) ∧
    (chain (GraphCommit.child 3 0 53 c2T) =
        chain cA ++ [c2X, c2B, c2T, .child 3 0 53 c2T] ∧
      ([c2X, c2B, c2T, GraphCommit.child 3 0 53 c2T] : List (GraphCommit Int)) ≠ []) :=
  ⟨⟨by decide, by decide, by decide⟩,
    parent_links_spec crInt 100
      (show findCommonAncestor c2D c2T = some (cA, [c2B2, c2D], [c2X, c2B, c2T])
        by decide)
      (show findCommitIndex c2T [c2X, c2B, c2T] = some 2 by decide)
      (show rebaseBranch crInt c2D c2T c2T 100 =
          some (.child 3 0 53 c2T, some 55,
            ⟨c2T, [c2B2, c2D], [c2X, c2B, c2T, .child 3 0 53 c2T]⟩)
        by decide)⟩

/-- C10: on both no-algebra return paths of rebaseBranch — target commit not
on the target path (but related to the target head), or target rebase path
empty after stripping the common tag prefix — the returned cumulative source
change is undefined (none), even though on the second path the returned head
is a freshly minted reparented commit. -/
theorem undefined_change_spec (cr : ChangeRebaser C)
    {s tc th anc : GraphCommit C} {sp tp : List (GraphCommit C)} (fresh : Nat)
    (hfca : findCommonAncestor s th = some (anc, sp, tp))
    (hcase : (findCommitIndex tc tp = none ∧
        (findCommonAncestor tc th).isSome = true) ∨
      (∃ i, findCommitIndex tc tp = some i ∧ (strippedOf sp tp i).2 = [])) :
    ∃ head rc, rebaseBranch cr s tc th fresh = some (head, none, rc) := by
  rcases hcase with ⟨hidx, hrel⟩ | ⟨i, hidx, hstrip⟩
  · exact ⟨s, ⟨anc, [], []⟩, rebaseBranch_eq_not_found cr fresh hfca hidx hrel⟩
  · exact ⟨_, _, rebaseBranch_eq_fastpath cr fresh hfca hidx hstrip⟩

/-- Witness for C10 on the reparenting path: rebasing source A-B2-D onto
target head B yields head D-reparented (a new commit, different from the
input source head D) while the cumulative change is none. -/
theorem undefined_change_spec_witness :
    (findCommonAncestor cD cB = some (cA, [cB2, cD], [cB]) ∧
      findCommitIndex cB [cB] = some 0 ∧
      (strippedOf [cB2, cD] [cB] 0).2 = []) ∧
    (∃ head rc, rebaseBranch crInt cD cB cB 70 = some (head, none, rc)) ∧
    rebaseBranch crInt cD cB cB 70 =
      some (.child 3 0 3 cB, none, ⟨cB, [cB2, cD], [cB, .child 3 0 3 cB]⟩) ∧
    GraphCommit.child 3 0 3 cB ≠ cD :=
  ⟨⟨by decide, by decide, by decide⟩,
    undefined_change_spec crInt 70
      (show findCommonAncestor cD cB = some (cA, [cB2, cD], [cB]) by decide)
      (Or.inr ⟨0, by decide, by decide⟩),
    by decide, by decide⟩

end Claims2

end Fluid
